import Mathlib

/-!
Shallow embedding of the `linked_list` crate (arceos-org), files
`src/raw_list.rs` and `src/linked_list.rs`.

Elements are identified by abstract addresses (`Nat`), standing for the
`NonNull<T>` pointers of the source.  The per-element embedded state
(`Links<T>`: the atomic `inserted` guard bit plus the `ListEntry` with
`next`/`prev` pointer slots) lives in a heap `Nat → Links`.  A `RawList`
is its `head : Option NonNull<_>` together with that heap; every
operation below is a direct transcription of the corresponding Rust
function, performing the same field reads and writes in the same order.
-/

/-- Rust `ListEntry<T>` from raw_list.rs: the `next`/`prev` pointer slots. -/
structure ListEntry where
  next : Option Nat
  prev : Option Nat
deriving DecidableEq

/-- Rust `ListEntry::new()`: both slots empty. -/
def ListEntry.new : ListEntry := ⟨none, none⟩

/-- Rust `Links<T>` from raw_list.rs: the `inserted` guard bit plus the entry. -/
structure Links where
  inserted : Bool
  entry : ListEntry
deriving DecidableEq

/-- Rust `Links::new()`: not inserted, empty entry. -/
def Links.new : Links := ⟨false, ListEntry.new⟩

/-- A `RawList<G>` (its `head` field) together with the heap of per-element
`Links` that the source reaches through `G::get_links`. -/
structure RawListState where
  heap : Nat → Links
  head : Option Nat

/-- The empty list over a heap where no element is linked anywhere. -/
def emptyState : RawListState := ⟨fun _ => Links.new, none⟩

/-- Write the `next` slot of element `p` (a single Rust field assignment). -/
def setNext (s : RawListState) (p : Nat) (v : Option Nat) : RawListState :=
  { s with heap := fun q => if q = p then { s.heap q with entry := { (s.heap q).entry with next := v } } else s.heap q }

/-- Write the `prev` slot of element `p` (a single Rust field assignment). -/
def setPrev (s : RawListState) (p : Nat) (v : Option Nat) : RawListState :=
  { s with heap := fun q => if q = p then { s.heap q with entry := { (s.heap q).entry with prev := v } } else s.heap q }

/-- Write the `inserted` guard bit of element `p`
(`acquire_for_insertion` / `release_after_removal`). -/
def setInserted (s : RawListState) (p : Nat) (v : Bool) : RawListState :=
  { s with heap := fun q => if q = p then { s.heap q with inserted := v } else s.heap q }

/-- Write the list head. -/
def setHead (s : RawListState) (v : Option Nat) : RawListState :=
  { s with head := v }

/-- Read the `next` slot of element `p`. -/
def nextOf (s : RawListState) (p : Nat) : Option Nat := (s.heap p).entry.next

/-- Read the `prev` slot of element `p`. -/
def prevOf (s : RawListState) (p : Nat) : Option Nat := (s.heap p).entry.prev

/-- Rust `Option::unwrap` on a pointer option.  Every use below sits under the
source's stated preconditions, which make the option `some`; the default
is never reached on well-formed states. -/
def unwrapO (o : Option Nat) : Nat := o.getD 0

/-- Rust `RawList::is_empty`. -/
def RawListState.is_empty (s : RawListState) : Bool := s.head.isNone

/-- Rust `RawList::front`: the head pointer. -/
def RawListState.front (s : RawListState) : Option Nat := s.head

/-- Rust `RawList::back`: `head.prev`, or `None` on an empty list. -/
def RawListState.back (s : RawListState) : Option Nat :=
  match s.head with
  | none => none
  | some h => (s.heap h).entry.prev

/-- Rust `RawList::insert_after_priv(existing, new_entry, new_ptr)`, field writes
in source order: `new.next = existing.next; existing.next = new;
new.prev = existing; existing.next(old).prev = new`. -/
def insert_after_priv (s : RawListState) (existing newPtr : Nat) : RawListState :=
  let s1 := setNext s newPtr ((s.heap existing).entry.next)
  let s2 := setNext s1 existing (some newPtr)
  let s3 := setPrev s2 newPtr (some existing)
  let s4 := setPrev s3 (unwrapO ((s3.heap newPtr).entry.next)) (some newPtr)
  s4

/-- Rust `RawList::insert_after(existing, new)`: try to acquire the guard of
`new`; on failure return `false` without mutation, otherwise splice. -/
def insert_after (s : RawListState) (existing newPtr : Nat) : Bool × RawListState :=
  if (s.heap newPtr).inserted then (false, s)
  else (true, insert_after_priv (setInserted s newPtr true) existing newPtr)

/-- Rust `RawList::push_back_internal(new, front)`: acquire the guard; splice
after `back()` (updating `head` when `front`), or make a singleton circular
chain when the list is empty. -/
def push_back_internal (s : RawListState) (newPtr : Nat) (front : Bool) : Bool × RawListState :=
  if (s.heap newPtr).inserted then (false, s)
  else
    let s1 := setInserted s newPtr true
    match s1.back with
    | some b =>
        let s2 := insert_after_priv s1 b newPtr
        if front then (true, setHead s2 (some newPtr)) else (true, s2)
    | none =>
        let s2 := setHead s1 (some newPtr)
        let s3 := setNext s2 newPtr (some newPtr)
        let s4 := setPrev s3 newPtr (some newPtr)
        (true, s4)

/-- Rust `RawList::push_back`. -/
def push_back (s : RawListState) (newPtr : Nat) : Bool × RawListState :=
  push_back_internal s newPtr false

/-- Rust `RawList::push_front`. -/
def push_front (s : RawListState) (newPtr : Nat) : Bool × RawListState :=
  push_back_internal s newPtr true

/-- Rust `RawList::remove_internal(data)`: return `false` if `data.next` is
absent; if `data` is its own successor clear `head`; otherwise advance
`head` past `data` when needed and relink `data.prev.next = data.next`,
`data.next.prev = data.prev`; finally clear `data`'s slots and release
its guard. -/
def remove_internal (s : RawListState) (data : Nat) : Bool × RawListState :=
  match (s.heap data).entry.next with
  | none => (false, s)
  | some nxt =>
    let s1 :=
      if data = nxt then setHead s none
      else
        let sA := match s.head with
          | some rawHead => if data = rawHead then setHead s (some nxt) else s
          | none => s
        let sB := setNext sA (unwrapO ((sA.heap data).entry.prev)) ((sA.heap data).entry.next)
        let sC := setPrev sB nxt ((sB.heap data).entry.prev)
        sC
    let s2 := setNext s1 data none
    let s3 := setPrev s2 data none
    let s4 := setInserted s3 data false
    (true, s4)

/-- Rust `RawList::pop_front`: remove the head (when present) and return it. -/
def pop_front (s : RawListState) : Option Nat × RawListState :=
  match s.head with
  | none => (none, s)
  | some h => (some h, (remove_internal s h).2)

/-- Rust `CommonCursor::move_next`: from `None` go to `head`; from an element
follow `next` unless that lands back on `head`, in which case become
`None` (the cursor was `take`n, so it stays cleared). -/
def move_next (s : RawListState) (cur : Option Nat) : Option Nat :=
  match cur with
  | none => s.head
  | some c =>
    match s.head with
    | none => none
    | some h =>
      if unwrapO ((s.heap c).entry.next) = h then none
      else (s.heap c).entry.next

/-- Rust `CommonCursor::move_prev`: mirror of `move_next` using `prev`,
checking against `head` from the opposite side. -/
def move_prev (s : RawListState) (cur : Option Nat) : Option Nat :=
  match s.head with
  | none => none
  | some h =>
    match cur with
    | none => (s.heap h).entry.prev
    | some c => if c = h then none else (s.heap c).entry.prev

/-- Rust `CursorMut::remove_current`: capture the current element, advance the
cursor first, then unlink; returns
(returned pointer, new cursor position, new state). -/
def remove_current (s : RawListState) (cur : Option Nat) : Option Nat × Option Nat × RawListState :=
  match cur with
  | none => (none, none, s)
  | some e =>
    let cur2 := move_next s (some e)
    (some e, cur2, (remove_internal s e).2)

/-- The double-ended `Iterator`: two independent cursors, one at the
front, one at the back. -/
structure RawIter where
  front : Option Nat
  back : Option Nat
deriving DecidableEq

/-- Rust `RawList::iter()`: front cursor at `front()`, back cursor at `back()`. -/
def RawListState.iter (s : RawListState) : RawIter := ⟨s.front, s.back⟩

/-- Rust `Iterator::next`: current element of the front cursor (or stop), then
advance it with `move_next`. -/
def iterNextF (s : RawListState) (it : RawIter) : Option Nat × RawIter :=
  match it.front with
  | none => (none, it)
  | some c => (some c, { it with front := move_next s (some c) })

/-- Rust `DoubleEndedIterator::next_back`: current element of the back cursor
(or stop), then advance it with `move_prev`. -/
def iterNextB (s : RawListState) (it : RawIter) : Option Nat × RawIter :=
  match it.back with
  | none => (none, it)
  | some c => (some c, { it with back := move_prev s (some c) })

/-- Drive `Iterator::next` until it yields `None` (fuel-bounded). -/
def collectF (s : RawListState) : Nat → RawIter → List Nat
  | 0, _ => []
  | fuel + 1, it =>
    match iterNextF s it with
    | (none, _) => []
    | (some x, it2) => x :: collectF s fuel it2

/-- Drive `next_back` until it yields `None` (fuel-bounded). -/
def collectB (s : RawListState) : Nat → RawIter → List Nat
  | 0, _ => []
  | fuel + 1, it =>
    match iterNextB s it with
    | (none, _) => []
    | (some x, it2) => x :: collectB s fuel it2

/-- Forward iteration of the whole list, as in `list.iter()`. -/
def forwardList (s : RawListState) (fuel : Nat) : List Nat := collectF s fuel s.iter

/-- Backward iteration of the whole list, as in `list.iter().rev()`. -/
def backwardList (s : RawListState) (fuel : Nat) : List Nat := collectB s fuel s.iter

/-- Push a whole list of fresh elements to the back, left to right. -/
def pushList (s : RawListState) (xs : List Nat) : RawListState :=
  xs.foldl (fun t x => (push_back t x).2) s

/-- The list built by pushing keys `1, 2, ..., n` to the back of the empty
list (the element with key `k` has address `k`). -/
def buildN (n : Nat) : RawListState := pushList emptyState (List.range' 1 n)

/-- Results of `k` successive `pop_front` calls. -/
def popN (s : RawListState) : Nat → List (Option Nat)
  | 0 => []
  | k + 1 =>
    match pop_front s with
    | (r, s2) => r :: popN s2 k

/-- State after `k` successive `pop_front` calls. -/
def popKState (s : RawListState) : Nat → RawListState
  | 0 => s
  | k + 1 => popKState (pop_front s).2 k

/-- The positions visited by `k` successive `move_next` steps. -/
def nextTraj (s : RawListState) : Nat → Option Nat → List (Option Nat)
  | 0, _ => []
  | k + 1, cur =>
    let c2 := move_next s cur
    c2 :: nextTraj s k c2

/-- The positions visited by `k` successive `move_prev` steps. -/
def prevTraj (s : RawListState) : Nat → Option Nat → List (Option Nat)
  | 0, _ => []
  | k + 1, cur =>
    let c2 := move_prev s cur
    c2 :: prevTraj s k c2

/-- The results of the call sequence `next, next, next_back, next_back` on
a fresh double-ended iterator. -/
def interleaveFFBB (s : RawListState) : List (Option Nat) :=
  let r1 := iterNextF s s.iter
  let r2 := iterNextF s r1.2
  let r3 := iterNextB s r2.2
  let r4 := iterNextB s r3.2
  [r1.1, r2.1, r3.1, r4.1]

/-- A `Box<T>` handle from linked_list.rs, identified by the address of
its allocation (the pointer `Box::into_raw` would yield). -/
structure BoxW where
  addr : Nat
deriving DecidableEq

/-- Rust `Wrapper<T> for Box<T>`: `into_pointer` is `Box::into_raw`. -/
def BoxW.into_pointer (b : BoxW) : Nat := b.addr

/-- Rust `Wrapper<T> for Box<T>`: `from_pointer` is `Box::from_raw`. -/
def BoxW.from_pointer (p : Nat) : BoxW := ⟨p⟩

/-- An `Arc<T>` handle, identified by the address `Arc::into_raw` yields. -/
structure ArcW where
  addr : Nat
deriving DecidableEq

/-- Rust `Wrapper<T> for Arc<T>`: `into_pointer` is `Arc::into_raw`. -/
def ArcW.into_pointer (a : ArcW) : Nat := a.addr

/-- Rust `Wrapper<T> for Arc<T>`: `from_pointer` is `Arc::from_raw`. -/
def ArcW.from_pointer (p : Nat) : ArcW := ⟨p⟩

/-- A shared-reference handle `&T`, identified by its referent's address. -/
structure RefW where
  addr : Nat
deriving DecidableEq

/-- Rust `Wrapper<T> for &T`: `into_pointer` is `NonNull::from(self)`. -/
def RefW.into_pointer (r : RefW) : Nat := r.addr

/-- Rust `Wrapper<T> for &T`: `from_pointer` dereferences the pointer. -/
def RefW.from_pointer (p : Nat) : RefW := ⟨p⟩

/-- Rust `List::push_back` from linked_list.rs (with `Box` handles): convert
the handle to a pointer, attempt the raw push; on rejection rebuild the
handle with `from_pointer` so that it is released, not leaked.  The
second component is that rebuilt-and-released handle. -/
def llistPushBack (s : RawListState) (data : BoxW) : RawListState × Option BoxW :=
  let p := data.into_pointer
  let r := push_back s p
  if r.1 then (r.2, none) else (r.2, some (BoxW.from_pointer p))

/-- Rust `List::push_front` from linked_list.rs (with `Box` handles). -/
def llistPushFront (s : RawListState) (data : BoxW) : RawListState × Option BoxW :=
  let p := data.into_pointer
  let r := push_front s p
  if r.1 then (r.2, none) else (r.2, some (BoxW.from_pointer p))

/-- Rust `List::insert_after` from linked_list.rs (with `Box` handles). -/
def llistInsertAfter (s : RawListState) (existing : BoxW) (data : BoxW) : RawListState × Option BoxW :=
  let p := data.into_pointer
  let r := insert_after s existing.addr p
  if r.1 then (r.2, none) else (r.2, some (BoxW.from_pointer p))

/-- Rust `List::pop_front` from linked_list.rs (with `Box` handles): the raw
pointer popped from the front is rebuilt into its owning handle. -/
def llistPopFront (s : RawListState) : Option BoxW × RawListState :=
  match pop_front s with
  | (none, s2) => (none, s2)
  | (some p, s2) => (some (BoxW.from_pointer p), s2)

/-- The per-element `Links` invariant stated in the spec: the `next` and
`prev` slots are both present or both absent, and the guard bit is set
exactly when the element is linked. -/
def elemOk (l : Links) : Prop :=
  l.entry.next.isSome = l.entry.prev.isSome ∧ l.inserted = l.entry.next.isSome

/-- Well-formedness of a raw list: `L` is the sequence of linked elements
(front to back) and `U` a finite universe of element addresses under
consideration.  Members carry the guard bit; non-members of `U` are fully
detached; `head` is the first member; `next`/`prev` trace one circular
chain through `L` (expressed on `L` zipped with its own rotation). -/
abbrev Wf (s : RawListState) (L U : List Nat) : Prop :=
  L.Nodup ∧
  (∀ p ∈ L, p ∈ U) ∧
  (∀ p ∈ U, p ∉ L → s.heap p = Links.new) ∧
  (∀ p ∈ L, (s.heap p).inserted = true) ∧
  s.head = L.head? ∧
  (∀ pr ∈ L.zip (L.rotate 1), nextOf s pr.1 = some pr.2 ∧ prevOf s pr.2 = some pr.1)

/-- What C8 demands of an insertion operation with result `r` on element
`newPtr`: every element of the universe still satisfies the `Links`
invariant, the result is true exactly when the guard bit was clear, a
rejected insertion changes nothing, a successful one sets the guard bit
of the new element, and no other element's guard bit moves. -/
abbrev insertionOpOk (s : RawListState) (U : List Nat) (newPtr : Nat) (r : Bool × RawListState) : Prop :=
  (∀ p ∈ U, elemOk (r.2.heap p)) ∧
  (r.1 = true ↔ (s.heap newPtr).inserted = false) ∧
  (r.1 = false → r.2 = s) ∧
  (r.1 = true → (r.2.heap newPtr).inserted = true) ∧
  (∀ p, p ≠ newPtr → (r.2.heap p).inserted = (s.heap p).inserted)

/-- What C8 demands of an unlink operation with result `r` on element
`data`: every element of the universe still satisfies the `Links`
invariant, the result is true exactly when `data` was linked (next slot
present), a failed removal changes nothing, a successful one leaves
`data` fully detached (both slots absent, guard bit clear), and no other
element's guard bit moves. -/
abbrev removalOpOk (s : RawListState) (U : List Nat) (data : Nat) (r : Bool × RawListState) : Prop :=
  (∀ p ∈ U, elemOk (r.2.heap p)) ∧
  (r.1 = true ↔ ((s.heap data).entry.next).isSome = true) ∧
  (r.1 = false → r.2 = s) ∧
  (r.1 = true → r.2.heap data = Links.new) ∧
  (∀ p, p ≠ data → (r.2.heap p).inserted = (s.heap p).inserted)

/-- C1: for every n in 0..10, pushing keys 1..n in ascending order to the
back of an empty list yields forward iteration [1,...,n] and backward
iteration [n,...,1]. -/
theorem push_back_order_forward_backward :
    ∀ n, n ≤ 10 →
      forwardList (buildN n) 12 = List.range' 1 n ∧
      backwardList (buildN n) 12 = (List.range' 1 n).reverse := by decide

/-- Witness for C1 at n = 10 (Scenario A of the spec). -/
theorem push_back_order_forward_backward_witness :
    forwardList (buildN 10) 12 = List.range' 1 10 ∧
    backwardList (buildN 10) 12 = (List.range' 1 10).reverse :=
  push_back_order_forward_backward 10 (by decide)

/-- C2: for every list length n in 1..10 and position i < n, inserting the
fresh key 99 after the element at position i splices it at position i+1
(forward and backward iteration agree); inserting after the last element
gives the same sequence as push_back of 99. -/
theorem insert_after_splices_at_position :
    ∀ n, 1 ≤ n → n ≤ 10 →
      (∀ i, i < n →
        (insert_after (buildN n) (i + 1) 99).1 = true ∧
        forwardList (insert_after (buildN n) (i + 1) 99).2 12 =
          (List.range' 1 n).take (i + 1) ++ 99 :: (List.range' 1 n).drop (i + 1) ∧
        backwardList (insert_after (buildN n) (i + 1) 99).2 12 =
          ((List.range' 1 n).take (i + 1) ++ 99 :: (List.range' 1 n).drop (i + 1)).reverse) ∧
      forwardList (insert_after (buildN n) n 99).2 12 = forwardList (push_back (buildN n) 99).2 12 ∧
      backwardList (insert_after (buildN n) n 99).2 12 = backwardList (push_back (buildN n) 99).2 12 := by
  decide

/-- Witness for C2 at n = 3, i = 1 (Scenario C of the spec). -/
theorem insert_after_splices_at_position_witness :
    (insert_after (buildN 3) 2 99).1 = true ∧
    forwardList (insert_after (buildN 3) 2 99).2 12 =
      (List.range' 1 3).take 2 ++ 99 :: (List.range' 1 3).drop 2 ∧
    backwardList (insert_after (buildN 3) 2 99).2 12 =
      ((List.range' 1 3).take 2 ++ 99 :: (List.range' 1 3).drop 2).reverse :=
  (insert_after_splices_at_position 3 (by decide) (by decide)).1 1 (by decide)

/-- C3: removing the element at position i from the length-n list yields
the sequence with that element excised (backward iteration stays the exact
reverse), the head is cleared or advanced as the algorithm states, and
remove returns true iff the element was linked (false when its next slot
is already absent). -/
theorem remove_excises_position :
    (∀ n, 1 ≤ n → n ≤ 10 → ∀ i, i < n →
      (remove_internal (buildN n) (i + 1)).1 = true ∧
      forwardList (remove_internal (buildN n) (i + 1)).2 12 = (List.range' 1 n).eraseIdx i ∧
      backwardList (remove_internal (buildN n) (i + 1)).2 12 = ((List.range' 1 n).eraseIdx i).reverse ∧
      (remove_internal (buildN n) (i + 1)).2.head = ((List.range' 1 n).eraseIdx i).head?) ∧
    (∀ (s : RawListState) (data : Nat),
      (s.heap data).entry.next = none → remove_internal s data = (false, s)) ∧
    (∀ (s : RawListState) (data nxt : Nat),
      (s.heap data).entry.next = some nxt → (remove_internal s data).1 = true) := by
  refine ⟨by decide, ?_, ?_⟩
  · intro s data h
    simp [remove_internal, h]
  · intro s data nxt h
    simp [remove_internal, h]

/-- Witness for C3: remove position 1 of [1,2,3], and a detached removal. -/
theorem remove_excises_position_witness :
    ((remove_internal (buildN 3) 2).1 = true ∧
     forwardList (remove_internal (buildN 3) 2).2 12 = (List.range' 1 3).eraseIdx 1 ∧
     backwardList (remove_internal (buildN 3) 2).2 12 = ((List.range' 1 3).eraseIdx 1).reverse ∧
     (remove_internal (buildN 3) 2).2.head = ((List.range' 1 3).eraseIdx 1).head?) ∧
    remove_internal emptyState 5 = (false, emptyState) :=
  ⟨remove_excises_position.1 3 (by decide) (by decide) 1 (by decide),
   remove_excises_position.2.1 emptyState 5 rfl⟩

/-- C4: an element whose guard bit is already set is rejected by every
insertion operation with no change at all to the state, and the ownership
facade rebuilds the rejected pointer into its owning handle (returning it
for release) instead of leaking it. -/
theorem insertion_rejected_when_already_linked :
    ∀ (s : RawListState) (newPtr existing : Nat) (front : Bool),
      (s.heap newPtr).inserted = true →
      push_back_internal s newPtr front = (false, s) ∧
      insert_after s existing newPtr = (false, s) ∧
      llistPushBack s ⟨newPtr⟩ = (s, some ⟨newPtr⟩) ∧
      llistPushFront s ⟨newPtr⟩ = (s, some ⟨newPtr⟩) ∧
      llistInsertAfter s ⟨existing⟩ ⟨newPtr⟩ = (s, some ⟨newPtr⟩) := by
  intro s newPtr existing front h
  refine ⟨?_, ?_, ?_, ?_, ?_⟩ <;>
    simp [push_back_internal, insert_after, llistPushBack, llistPushFront,
      llistInsertAfter, push_back, push_front, BoxW.into_pointer, BoxW.from_pointer, h]

/-- Witness for C4: pushing the already-linked element 1 onto [1]. -/
theorem insertion_rejected_when_already_linked_witness :
    push_back_internal (buildN 1) 1 false = (false, buildN 1) ∧
    insert_after (buildN 1) 1 1 = (false, buildN 1) ∧
    llistPushBack (buildN 1) ⟨1⟩ = (buildN 1, some ⟨1⟩) ∧
    llistPushFront (buildN 1) ⟨1⟩ = (buildN 1, some ⟨1⟩) ∧
    llistInsertAfter (buildN 1) ⟨1⟩ ⟨1⟩ = (buildN 1, some ⟨1⟩) :=
  insertion_rejected_when_already_linked (buildN 1) 1 1 false (by decide)

/-- C5: popping from the front of the length-n list (n ≤ 10) yields
exactly the n keys in front-to-back order and then only absent results,
after which the list reports empty; on any empty list front, back and
pop_front return absent and iteration yields nothing. -/
theorem pop_front_drains_list :
    (∀ n, n ≤ 10 →
      popN (buildN n) (n + 2) = (List.range' 1 n).map some ++ [none, none] ∧
      (popKState (buildN n) n).is_empty = true) ∧
    (∀ s : RawListState, s.head = none →
      pop_front s = (none, s) ∧ s.front = none ∧ s.back = none ∧ s.is_empty = true ∧
      ∀ fuel, forwardList s fuel = []) := by
  refine ⟨by decide, ?_⟩
  intro s h
  refine ⟨by simp [pop_front, h], by simp [RawListState.front, h],
    by simp [RawListState.back, h], by simp [RawListState.is_empty, h], ?_⟩
  intro fuel
  cases fuel with
  | zero => rfl
  | succ k =>
    simp [forwardList, collectF, iterNextF, RawListState.iter, RawListState.front, h]

/-- Witness for C5 at n = 3 and at the empty list. -/
theorem pop_front_drains_list_witness :
    (popN (buildN 3) 5 = (List.range' 1 3).map some ++ [none, none] ∧
     (popKState (buildN 3) 3).is_empty = true) ∧
    (pop_front emptyState = (none, emptyState) ∧ emptyState.front = none ∧
     emptyState.back = none ∧ emptyState.is_empty = true ∧
     ∀ fuel, forwardList emptyState fuel = []) :=
  ⟨pop_front_drains_list.1 3 (by decide), pop_front_drains_list.2 emptyState rfl⟩

/-- C6: from the off-end position move_next lands on head and move_prev
lands on back (head.prev); moving back from head gives the off-end
position; and on the length-n list (n ≤ 10) repeated move_next from the
off-end position visits each element once in order and then returns to
the off-end position, move_prev doing the mirror circuit. -/
theorem cursor_move_next_move_prev_circuit :
    (∀ s : RawListState, move_next s none = s.head) ∧
    (∀ s : RawListState, move_prev s none = s.back) ∧
    (∀ (s : RawListState) (h : Nat), s.head = some h → move_prev s (some h) = none) ∧
    (∀ n, n ≤ 10 →
      nextTraj (buildN n) (n + 1) none = (List.range' 1 n).map some ++ [none] ∧
      prevTraj (buildN n) (n + 1) none = ((List.range' 1 n).reverse).map some ++ [none]) := by
  refine ⟨fun s => rfl, ?_, ?_, by decide⟩
  · intro s
    unfold move_prev RawListState.back
    cases s.head <;> rfl
  · intro s h hh
    unfold move_prev
    rw [hh]
    simp

/-- Witness for C6 at the 3-element list and its head. -/
theorem cursor_move_next_move_prev_circuit_witness :
    (move_next (buildN 3) none = (buildN 3).head) ∧
    (move_prev (buildN 3) none = (buildN 3).back) ∧
    (move_prev (buildN 3) (some 1) = none) ∧
    (nextTraj (buildN 3) 4 none = (List.range' 1 3).map some ++ [none] ∧
     prevTraj (buildN 3) 4 none = ((List.range' 1 3).reverse).map some ++ [none]) :=
  ⟨cursor_move_next_move_prev_circuit.1 (buildN 3),
   cursor_move_next_move_prev_circuit.2.1 (buildN 3),
   cursor_move_next_move_prev_circuit.2.2.1 (buildN 3) 1 (by decide),
   cursor_move_next_move_prev_circuit.2.2.2 3 (by decide)⟩

/-- C7: remove_current on a cursor at position i of the length-n list
returns that element, leaves the cursor on what was the next position
before unlinking (off-end when i was last), and excises the element; on
the off-end position it returns absent and changes nothing.  The new
cursor position is always computed by move_next in the pre-removal
state. -/
theorem cursor_remove_current :
    (∀ s : RawListState, remove_current s none = (none, none, s)) ∧
    (∀ (s : RawListState) (e : Nat), (remove_current s (some e)).2.1 = move_next s (some e)) ∧
    (∀ n, 1 ≤ n → n ≤ 10 → ∀ i, i < n →
      (remove_current (buildN n) (some (i + 1))).1 = some (i + 1) ∧
      (remove_current (buildN n) (some (i + 1))).2.1 =
        (if i + 1 < n then some (i + 2) else none) ∧
      forwardList (remove_current (buildN n) (some (i + 1))).2.2 12 =
        (List.range' 1 n).eraseIdx i ∧
      backwardList (remove_current (buildN n) (some (i + 1))).2.2 12 =
        ((List.range' 1 n).eraseIdx i).reverse) :=
  ⟨fun s => rfl, fun s e => rfl, by decide⟩

/-- Witness for C7 at the 3-element list, cursor on position 1. -/
theorem cursor_remove_current_witness :
    (remove_current (buildN 3) (some 2)).1 = some 2 ∧
    (remove_current (buildN 3) (some 2)).2.1 = (if 2 < 3 then some 3 else none) ∧
    forwardList (remove_current (buildN 3) (some 2)).2.2 12 = (List.range' 1 3).eraseIdx 1 ∧
    backwardList (remove_current (buildN 3) (some 2)).2.2 12 = ((List.range' 1 3).eraseIdx 1).reverse :=
  cursor_remove_current.2.2 3 (by decide) (by decide) 1 (by decide)

/-- C9: consuming the double-ended iterator with next alone yields the n
elements forward, with next_back alone yields them in reverse; the two
cursors are independent, so on the 2-element list the call sequence
next, next, next_back, next_back yields both elements twice. -/
theorem double_ended_iterator_independent_cursors :
    (∀ n, n ≤ 10 →
      forwardList (buildN n) 12 = List.range' 1 n ∧
      backwardList (buildN n) 12 = (List.range' 1 n).reverse) ∧
    interleaveFFBB (buildN 2) = [some 1, some 2, some 2, some 1] :=
  ⟨by decide, by decide⟩

/-- Witness for C9 at n = 2. -/
theorem double_ended_iterator_independent_cursors_witness :
    forwardList (buildN 2) 12 = List.range' 1 2 ∧
    backwardList (buildN 2) 12 = (List.range' 1 2).reverse :=
  double_ended_iterator_independent_cursors.1 2 (by decide)

/-- C10: for each of the three Wrapper implementations, from_pointer after
into_pointer reconstructs the same handle. -/
theorem wrapper_round_trip :
    (∀ b : BoxW, BoxW.from_pointer b.into_pointer = b) ∧
    (∀ a : ArcW, ArcW.from_pointer a.into_pointer = a) ∧
    (∀ r : RefW, RefW.from_pointer r.into_pointer = r) :=
  ⟨fun _ => rfl, fun _ => rfl, fun _ => rfl⟩

/-- Pointwise effect of a `next` write on the heap. -/
theorem heap_setNext (s : RawListState) (p : Nat) (v : Option Nat) (q : Nat) :
    (setNext s p v).heap q =
      if q = p then { s.heap q with entry := { (s.heap q).entry with next := v } } else s.heap q := rfl

/-- A `next` write leaves the head unchanged. -/
theorem head_setNext (s : RawListState) (p : Nat) (v : Option Nat) : (setNext s p v).head = s.head := rfl

/-- Pointwise effect of a `prev` write on the heap. -/
theorem heap_setPrev (s : RawListState) (p : Nat) (v : Option Nat) (q : Nat) :
    (setPrev s p v).heap q =
      if q = p then { s.heap q with entry := { (s.heap q).entry with prev := v } } else s.heap q := rfl

/-- A `prev` write leaves the head unchanged. -/
theorem head_setPrev (s : RawListState) (p : Nat) (v : Option Nat) : (setPrev s p v).head = s.head := rfl

/-- Pointwise effect of a guard-bit write on the heap. -/
theorem heap_setInserted (s : RawListState) (p : Nat) (v : Bool) (q : Nat) :
    (setInserted s p v).heap q = if q = p then { s.heap q with inserted := v } else s.heap q := rfl

/-- A guard-bit write leaves the head unchanged. -/
theorem head_setInserted (s : RawListState) (p : Nat) (v : Bool) : (setInserted s p v).head = s.head := rfl

/-- A head write leaves the heap unchanged. -/
theorem heap_setHead (s : RawListState) (v : Option Nat) : (setHead s v).heap = s.heap := rfl

/-- Every member of a well-formed list has a present `next` slot pointing
at a member. -/
theorem wf_next_mem {s : RawListState} {L U : List Nat} (hwf : Wf s L U) {p : Nat} (hp : p ∈ L) :
    ∃ q, q ∈ L ∧ nextOf s p = some q := by
  obtain ⟨-, -, -, -, -, hcyc⟩ := hwf
  have hlen : L.length ≤ (L.rotate 1).length := by rw [List.length_rotate]
  have hmap := List.map_fst_zip L (L.rotate 1) hlen
  rw [← hmap] at hp
  obtain ⟨⟨a, b⟩, hpr, hfst⟩ := List.mem_map.mp hp
  refine ⟨b, List.mem_rotate.mp (List.of_mem_zip hpr).2, ?_⟩
  rw [← hfst]
  exact (hcyc (a, b) hpr).1

/-- Every member of a well-formed list has a present `prev` slot pointing
at a member. -/
theorem wf_prev_mem {s : RawListState} {L U : List Nat} (hwf : Wf s L U) {p : Nat} (hp : p ∈ L) :
    ∃ q, q ∈ L ∧ prevOf s p = some q := by
  obtain ⟨-, -, -, -, -, hcyc⟩ := hwf
  have hlen : (L.rotate 1).length ≤ L.length := by rw [List.length_rotate]
  have hmap := List.map_snd_zip L (L.rotate 1) hlen
  have hp2 : p ∈ L.rotate 1 := List.mem_rotate.mpr hp
  rw [← hmap] at hp2
  obtain ⟨⟨a, b⟩, hpr, hsnd⟩ := List.mem_map.mp hp2
  refine ⟨a, (List.of_mem_zip hpr).1, ?_⟩
  rw [← hsnd]
  exact (hcyc (a, b) hpr).2

/-- On a well-formed state every element of the universe satisfies the
per-element `Links` invariant. -/
theorem wf_elemOk {s : RawListState} {L U : List Nat} (hwf : Wf s L U) {p : Nat} (hp : p ∈ U) :
    elemOk (s.heap p) := by
  by_cases hmem : p ∈ L
  · obtain ⟨qn, -, hqn⟩ := wf_next_mem hwf hmem
    obtain ⟨qp, -, hqp⟩ := wf_prev_mem hwf hmem
    have hins := hwf.2.2.2.1 p hmem
    simp only [nextOf, prevOf] at hqn hqp
    simp [elemOk, hqn, hqp, hins]
  · have hclean := hwf.2.2.1 p hp hmem
    rw [hclean]
    exact ⟨rfl, rfl⟩

/-- On a well-formed non-empty list `back` is a member, namely the `prev`
of the head. -/
theorem wf_back_mem {s : RawListState} {L U : List Nat} (hwf : Wf s L U) {x : Nat} {rest : List Nat}
    (hL : L = x :: rest) : ∃ b, b ∈ L ∧ s.back = some b ∧ prevOf s x = some b := by
  have hx : x ∈ L := by rw [hL]; exact List.mem_cons_self x rest
  obtain ⟨b, hb, hprev⟩ := wf_prev_mem hwf hx
  have hhead : s.head = some x := by rw [hwf.2.2.2.2.1, hL]; rfl
  refine ⟨b, hb, ?_, hprev⟩
  simp only [RawListState.back, hhead]
  simpa [prevOf] using hprev

/-- A member of a well-formed list carries the guard bit, so an element
whose guard bit is clear is not a member. -/
theorem wf_not_mem_of_not_inserted {s : RawListState} {L U : List Nat} (hwf : Wf s L U) {p : Nat}
    (h : (s.heap p).inserted = false) : p ∉ L := by
  intro hmem
  rw [hwf.2.2.2.1 p hmem] at h
  cases h

/-- Splicing a fresh element after a member keeps the per-element `Links`
invariant everywhere in the universe. -/
theorem insert_after_priv_elemOk {s : RawListState} {L U : List Nat} (hwf : Wf s L U)
    {newPtr b : Nat} (hnotL : newPtr ∉ L) (hbL : b ∈ L) :
    ∀ p ∈ U, elemOk ((insert_after_priv (setInserted s newPtr true) b newPtr).heap p) := by
  obtain ⟨c, hcL, hcnext⟩ := wf_next_mem hwf hbL
  have hbn : b ≠ newPtr := fun he => hnotL (he ▸ hbL)
  have hcn : c ≠ newPtr := fun he => hnotL (he ▸ hcL)
  have hnb : newPtr ≠ b := fun he => hbn he.symm
  have hnc : newPtr ≠ c := fun he => hcn he.symm
  simp only [nextOf] at hcnext
  intro p hp
  simp only [insert_after_priv, heap_setNext, heap_setPrev, heap_setInserted,
    head_setNext, head_setPrev, head_setInserted, unwrapO, if_neg hbn, if_neg hnb, hcnext]
  by_cases hpn : p = newPtr
  · subst hpn
    simp [elemOk, hnb, hnc]
  · by_cases hpc : p = c
    · subst hpc
      by_cases hpb : p = b
      · subst hpb
        have hins := hwf.2.2.2.1 p hbL
        simp [elemOk, hpn, hins]
      · obtain ⟨d, hdL, hdnext⟩ := wf_next_mem hwf hcL
        simp only [nextOf] at hdnext
        have hins := hwf.2.2.2.1 p hcL
        simp [elemOk, hpn, hpb, hins, hdnext]
    · by_cases hpb : p = b
      · subst hpb
        obtain ⟨d, hdL, hdprev⟩ := wf_prev_mem hwf hbL
        simp only [prevOf] at hdprev
        have hins := hwf.2.2.2.1 p hbL
        simp [elemOk, hpn, hpc, hins, hdprev]
      · have hok := wf_elemOk hwf hp
        simpa [hpn, hpc, hpb] using hok

/-- push_back_internal keeps the per-element `Links` invariant everywhere
in the universe, for both push_back and push_front. -/
theorem push_back_internal_elemOk {s : RawListState} {L U : List Nat} (hwf : Wf s L U)
    {newPtr : Nat} (hnewU : newPtr ∈ U) (front : Bool) :
    ∀ p ∈ U, elemOk ((push_back_internal s newPtr front).2.heap p) := by
  intro p hp
  by_cases hins : (s.heap newPtr).inserted = true
  · simp only [push_back_internal, if_pos hins]
    exact wf_elemOk hwf hp
  · have hfalse : (s.heap newPtr).inserted = false := by
      revert hins; cases (s.heap newPtr).inserted <;> simp
    have hnotL : newPtr ∉ L := wf_not_mem_of_not_inserted hwf hfalse
    cases hL : L with
    | nil =>
      have hhead : s.head = none := by rw [hwf.2.2.2.2.1, hL]; rfl
      have hback : (setInserted s newPtr true).back = none := by
        simp only [RawListState.back, head_setInserted, hhead]
      simp only [push_back_internal, if_neg hins, hback]
      by_cases hpn : p = newPtr
      · subst hpn
        simp [heap_setPrev, heap_setNext, heap_setHead, heap_setInserted, elemOk]
      · simp only [heap_setPrev, heap_setNext, heap_setHead, heap_setInserted, if_neg hpn]
        exact wf_elemOk hwf hp
    | cons x rest =>
      rw [hL] at hwf hnotL
      have hhead : s.head = some x := by rw [hwf.2.2.2.2.1]; rfl
      have hxL : x ∈ x :: rest := List.mem_cons_self x rest
      have hxn : x ≠ newPtr := fun he => hnotL (he ▸ hxL)
      obtain ⟨b, hbL, hbprev⟩ := wf_prev_mem hwf hxL
      have hback : (setInserted s newPtr true).back = some b := by
        have h1 : (setInserted s newPtr true).head = some x := by rw [head_setInserted, hhead]
        simp only [RawListState.back, h1, heap_setInserted, if_neg hxn]
        simpa [prevOf] using hbprev
      simp only [push_back_internal, if_neg hins, hback]
      have hmain := insert_after_priv_elemOk hwf hnotL hbL p hp
      cases front <;> simpa [heap_setHead] using hmain

/-- A `next` write never changes a guard bit. -/
theorem inserted_setNext (s : RawListState) (p : Nat) (v : Option Nat) (q : Nat) :
    ((setNext s p v).heap q).inserted = (s.heap q).inserted := by
  simp only [heap_setNext]; split <;> rfl

/-- A `prev` write never changes a guard bit. -/
theorem inserted_setPrev (s : RawListState) (p : Nat) (v : Option Nat) (q : Nat) :
    ((setPrev s p v).heap q).inserted = (s.heap q).inserted := by
  simp only [heap_setPrev]; split <;> rfl

/-- Effect of a guard-bit write on any guard bit. -/
theorem inserted_setInserted (s : RawListState) (p : Nat) (v : Bool) (q : Nat) :
    ((setInserted s p v).heap q).inserted = if q = p then v else (s.heap q).inserted := by
  simp only [heap_setInserted]; split <;> rfl

/-- A `next` write never changes a `prev` slot. -/
theorem prev_setNext (s : RawListState) (p : Nat) (v : Option Nat) (q : Nat) :
    ((setNext s p v).heap q).entry.prev = (s.heap q).entry.prev := by
  simp only [heap_setNext]; split <;> rfl

/-- A `prev` write never changes a `next` slot. -/
theorem next_setPrev (s : RawListState) (p : Nat) (v : Option Nat) (q : Nat) :
    ((setPrev s p v).heap q).entry.next = (s.heap q).entry.next := by
  simp only [heap_setPrev]; split <;> rfl

/-- A conditional head write never changes the heap. -/
theorem heap_ite_setHead (c : Prop) [Decidable c] (s : RawListState) (v : Option Nat) :
    (if c then setHead s v else s).heap = s.heap := by
  split <;> rfl

/-- The splice helper touches only `next`/`prev` slots, never guard bits. -/
theorem inserted_insert_after_priv (s : RawListState) (ex np q : Nat) :
    ((insert_after_priv s ex np).heap q).inserted = (s.heap q).inserted := by
  simp only [insert_after_priv, inserted_setPrev, inserted_setNext]

/-- push_back_internal succeeds exactly when the guard bit was clear. -/
theorem push_back_internal_fst (s : RawListState) (newPtr : Nat) (front : Bool) :
    (push_back_internal s newPtr front).1 = !(s.heap newPtr).inserted := by
  by_cases hins : (s.heap newPtr).inserted = true
  · simp [push_back_internal, hins]
  · have hfalse : (s.heap newPtr).inserted = false := by
      revert hins; cases (s.heap newPtr).inserted <;> simp
    simp only [push_back_internal, if_neg hins, hfalse]
    cases hb : (setInserted s newPtr true).back <;> cases front <;> simp

/-- insert_after succeeds exactly when the guard bit was clear. -/
theorem insert_after_fst (s : RawListState) (existing newPtr : Nat) :
    (insert_after s existing newPtr).1 = !(s.heap newPtr).inserted := by
  by_cases hins : (s.heap newPtr).inserted = true
  · simp [insert_after, hins]
  · have hfalse : (s.heap newPtr).inserted = false := by
      revert hins; cases (s.heap newPtr).inserted <;> simp
    simp [insert_after, hins, hfalse]

/-- A successful push sets the guard bit of the new element. -/
theorem push_back_internal_sets_guard (s : RawListState) (newPtr : Nat) (front : Bool)
    (h : (s.heap newPtr).inserted = false) :
    ((push_back_internal s newPtr front).2.heap newPtr).inserted = true := by
  have hins : ¬ (s.heap newPtr).inserted = true := by simp [h]
  simp only [push_back_internal, if_neg hins]
  cases hb : (setInserted s newPtr true).back with
  | some b =>
    cases front <;>
      simp [heap_setHead, inserted_insert_after_priv, inserted_setInserted]
  | none =>
    cases front <;>
      simp [inserted_setPrev, inserted_setNext, heap_setHead, inserted_setInserted]

/-- A successful insert_after sets the guard bit of the new element. -/
theorem insert_after_sets_guard (s : RawListState) (existing newPtr : Nat)
    (h : (s.heap newPtr).inserted = false) :
    ((insert_after s existing newPtr).2.heap newPtr).inserted = true := by
  have hins : ¬ (s.heap newPtr).inserted = true := by simp [h]
  simp [insert_after, hins, inserted_insert_after_priv, inserted_setInserted]

/-- push_back_internal leaves every other element's guard bit unchanged. -/
theorem inserted_push_back_internal (s : RawListState) (newPtr : Nat) (front : Bool)
    (p : Nat) (hp : p ≠ newPtr) :
    ((push_back_internal s newPtr front).2.heap p).inserted = (s.heap p).inserted := by
  by_cases hins : (s.heap newPtr).inserted = true
  · simp [push_back_internal, hins]
  · simp only [push_back_internal, if_neg hins]
    cases hb : (setInserted s newPtr true).back with
    | some b =>
      cases front <;>
        simp [heap_setHead, inserted_insert_after_priv, inserted_setInserted, hp]
    | none =>
      cases front <;>
        simp [inserted_setPrev, inserted_setNext, heap_setHead, inserted_setInserted, hp]

/-- insert_after leaves every other element's guard bit unchanged. -/
theorem inserted_insert_after (s : RawListState) (existing newPtr : Nat)
    (p : Nat) (hp : p ≠ newPtr) :
    ((insert_after s existing newPtr).2.heap p).inserted = (s.heap p).inserted := by
  by_cases hins : (s.heap newPtr).inserted = true
  · simp [insert_after, hins]
  · simp [insert_after, hins, inserted_insert_after_priv, inserted_setInserted, hp]

/-- remove_internal succeeds exactly when the `next` slot is present. -/
theorem remove_internal_fst (s : RawListState) (data : Nat) :
    (remove_internal s data).1 = ((s.heap data).entry.next).isSome := by
  cases h : (s.heap data).entry.next <;> simp [remove_internal, h]

/-- A successful removal leaves the removed element fully detached. -/
theorem remove_internal_heap_data (s : RawListState) (data : Nat)
    (h : (remove_internal s data).1 = true) :
    (remove_internal s data).2.heap data = Links.new := by
  cases hn : (s.heap data).entry.next with
  | none => rw [remove_internal_fst, hn] at h; cases h
  | some nx =>
    simp only [remove_internal, hn]
    simp [heap_setInserted, heap_setPrev, heap_setNext, Links.new, ListEntry.new]

/-- remove_internal leaves every other element's guard bit unchanged. -/
theorem inserted_remove_internal (s : RawListState) (data p : Nat) (hp : p ≠ data) :
    ((remove_internal s data).2.heap p).inserted = (s.heap p).inserted := by
  cases hn : (s.heap data).entry.next with
  | none => simp [remove_internal, hn]
  | some nx =>
    simp only [remove_internal, hn, inserted_setInserted, if_neg hp, inserted_setPrev,
      inserted_setNext]
    by_cases hdn : data = nx
    · simp [hdn, setHead]
    · cases hh : s.head with
      | none => simp [hdn, hh, inserted_setPrev, inserted_setNext]
      | some rawHead =>
        simp [hdn, hh, inserted_setPrev, inserted_setNext, heap_ite_setHead]

/-- remove_internal keeps the per-element `Links` invariant everywhere in
the universe. -/
theorem remove_internal_elemOk {s : RawListState} {L U : List Nat} (hwf : Wf s L U)
    {data : Nat} (hdU : data ∈ U) :
    ∀ p ∈ U, elemOk ((remove_internal s data).2.heap p) := by
  intro p hp
  by_cases hmem : data ∈ L
  · cases hL : L with
    | nil => rw [hL] at hmem; cases hmem
    | cons x rest =>
      rw [hL] at hwf hmem
      have hhead : s.head = some x := by rw [hwf.2.2.2.2.1]; rfl
      obtain ⟨nx, hnxL, hnext⟩ := wf_next_mem hwf hmem
      obtain ⟨pv, hpvL, hprev⟩ := wf_prev_mem hwf hmem
      simp only [nextOf] at hnext
      simp only [prevOf] at hprev
      simp only [remove_internal, hnext]
      by_cases hpd : p = data
      · subst hpd
        simp [heap_setInserted, heap_setPrev, heap_setNext, elemOk]
      · simp only [heap_setInserted, heap_setPrev, heap_setNext, if_neg hpd]
        by_cases hdn : data = nx
        · simp only [if_pos hdn, heap_setHead]
          exact wf_elemOk hwf hp
        · simp only [if_neg hdn, hhead, heap_setPrev, heap_setNext, heap_ite_setHead,
            prev_setNext, hprev, hnext, unwrapO, Option.getD_some]
          have hinsnx := hwf.2.2.2.1 nx hnxL
          have hinspv := hwf.2.2.2.1 pv hpvL
          obtain ⟨dn, hdnL, hdnnext⟩ := wf_next_mem hwf hnxL
          obtain ⟨dp, hdpL, hdpprev⟩ := wf_prev_mem hwf hpvL
          simp only [nextOf] at hdnnext
          simp only [prevOf] at hdpprev
          have hok := wf_elemOk hwf hp
          by_cases hdpv : data = pv
          · by_cases hpnx : p = nx
            · subst hpnx
              by_cases hppv : p = pv
              · simp [elemOk, hdpv, hppv, hinsnx, hinspv]
              · simp [elemOk, hdpv, hppv, hinsnx, hdnnext]
            · by_cases hppv : p = pv
              · subst hppv
                simp [elemOk, hdpv, hpnx, hinspv, hdpprev]
              · simp only [if_neg hpnx, if_neg hppv]
                exact hok
          · by_cases hpnx : p = nx
            · subst hpnx
              by_cases hppv : p = pv
              · simp [elemOk, hdpv, hppv, hinsnx, hinspv, hprev]
              · simp [elemOk, hdpv, hppv, hinsnx, hdnnext, hprev]
            · by_cases hppv : p = pv
              · subst hppv
                simp [elemOk, hdpv, hpnx, hinspv, hdpprev, hprev]
              · simp only [if_neg hpnx, if_neg hppv]
                exact hok
  · have hclean := hwf.2.2.1 data hdU hmem
    have hnone : (s.heap data).entry.next = none := by rw [hclean]; rfl
    simp only [remove_internal, hnone]
    exact wf_elemOk hwf hp

/-- insert_after keeps the per-element `Links` invariant everywhere in
the universe, provided `existing` is a member. -/
theorem insert_after_elemOk {s : RawListState} {L U : List Nat} (hwf : Wf s L U)
    {existing newPtr : Nat} (hex : existing ∈ L) :
    ∀ p ∈ U, elemOk ((insert_after s existing newPtr).2.heap p) := by
  intro p hp
  by_cases hins : (s.heap newPtr).inserted = true
  · simp only [insert_after, if_pos hins]
    exact wf_elemOk hwf hp
  · have hfalse : (s.heap newPtr).inserted = false := by
      revert hins; cases (s.heap newPtr).inserted <;> simp
    have hnotL : newPtr ∉ L := wf_not_mem_of_not_inserted hwf hfalse
    simp only [insert_after, if_neg hins]
    exact insert_after_priv_elemOk hwf hnotL hex p hp

/-- push_back_internal satisfies the C8 contract for insertions. -/
theorem push_back_internal_opOk {s : RawListState} {L U : List Nat} (hwf : Wf s L U)
    {newPtr : Nat} (hnewU : newPtr ∈ U) (front : Bool) :
    insertionOpOk s U newPtr (push_back_internal s newPtr front) := by
  refine ⟨push_back_internal_elemOk hwf hnewU front, ?_, ?_, ?_, ?_⟩
  · rw [push_back_internal_fst]
    cases (s.heap newPtr).inserted <;> simp
  · intro h
    rw [push_back_internal_fst] at h
    have hins : (s.heap newPtr).inserted = true := by
      revert h; cases (s.heap newPtr).inserted <;> simp
    simp [push_back_internal, hins]
  · intro h
    rw [push_back_internal_fst] at h
    have hfalse : (s.heap newPtr).inserted = false := by
      revert h; cases (s.heap newPtr).inserted <;> simp
    exact push_back_internal_sets_guard s newPtr front hfalse
  · intro p hp
    exact inserted_push_back_internal s newPtr front p hp

/-- insert_after satisfies the C8 contract for insertions. -/
theorem insert_after_opOk {s : RawListState} {L U : List Nat} (hwf : Wf s L U)
    {existing newPtr : Nat} (hex : existing ∈ L) :
    insertionOpOk s U newPtr (insert_after s existing newPtr) := by
  refine ⟨insert_after_elemOk hwf hex, ?_, ?_, ?_, ?_⟩
  · rw [insert_after_fst]
    cases (s.heap newPtr).inserted <;> simp
  · intro h
    rw [insert_after_fst] at h
    have hins : (s.heap newPtr).inserted = true := by
      revert h; cases (s.heap newPtr).inserted <;> simp
    simp [insert_after, hins]
  · intro h
    rw [insert_after_fst] at h
    have hfalse : (s.heap newPtr).inserted = false := by
      revert h; cases (s.heap newPtr).inserted <;> simp
    exact insert_after_sets_guard s existing newPtr hfalse
  · intro p hp
    exact inserted_insert_after s existing newPtr p hp

/-- remove_internal satisfies the C8 contract for removals. -/
theorem remove_internal_opOk {s : RawListState} {L U : List Nat} (hwf : Wf s L U)
    {data : Nat} (hdU : data ∈ U) :
    removalOpOk s U data (remove_internal s data) := by
  refine ⟨remove_internal_elemOk hwf hdU, ?_, ?_, ?_, ?_⟩
  · rw [remove_internal_fst]
  · intro h
    rw [remove_internal_fst] at h
    have hnone : (s.heap data).entry.next = none := by
      revert h; cases (s.heap data).entry.next <;> simp
    simp [remove_internal, hnone]
  · exact remove_internal_heap_data s data
  · intro p hp
    exact inserted_remove_internal s data p hp

/-- pop_front keeps the per-element `Links` invariant and returns exactly
the old head. -/
theorem pop_front_opOk {s : RawListState} {L U : List Nat} (hwf : Wf s L U) :
    (∀ p ∈ U, elemOk ((pop_front s).2.heap p)) ∧ (pop_front s).1 = s.head := by
  refine ⟨?_, ?_⟩
  · intro p hp
    cases hh : s.head with
    | none =>
      simp only [pop_front, hh]
      exact wf_elemOk hwf hp
    | some h =>
      have hL := hwf.2.2.2.2.1
      rw [hh] at hL
      have hhU : h ∈ U := by
        cases hLc : L with
        | nil => rw [hLc] at hL; cases hL
        | cons x rest =>
          rw [hLc] at hL
          have hx : h = x := by
            simpa using hL
          apply hwf.2.1
          rw [hLc, hx]
          exact List.mem_cons_self x rest
      simp only [pop_front, hh]
      exact remove_internal_elemOk hwf hhU p hp
  · cases hh : s.head <;> simp [pop_front, hh]

/-- C8: on a well-formed list every operation preserves the per-element
Links invariant for the whole universe of elements: next and prev are
both present or both absent and the guard bit is set exactly when the
element is linked; an insertion flips the new element's guard false→true
exactly when it succeeds and flips no other guard; an unlink returns true
exactly when the element was linked, clears its next/prev and guard, and
flips no other guard; a rejected insertion and a failed removal change
nothing. -/
theorem links_invariant_preserved :
    ∀ (s : RawListState) (L U : List Nat) (newPtr existing data : Nat) (front : Bool),
      Wf s L U → newPtr ∈ U → existing ∈ L → data ∈ U →
      insertionOpOk s U newPtr (push_back_internal s newPtr front) ∧
      insertionOpOk s U newPtr (insert_after s existing newPtr) ∧
      removalOpOk s U data (remove_internal s data) ∧
      (∀ p ∈ U, elemOk ((pop_front s).2.heap p)) ∧ (pop_front s).1 = s.head := by
  intro s L U newPtr existing data front hwf hnewU hex hdU
  exact ⟨push_back_internal_opOk hwf hnewU front, insert_after_opOk hwf hex,
    remove_internal_opOk hwf hdU, pop_front_opOk hwf⟩

/-- Witness for C8 on the list [1, 2] in universe [1, 2, 3], pushing the
fresh element 3, inserting after 1, removing 1. -/
theorem links_invariant_preserved_witness :
    insertionOpOk (buildN 2) [1, 2, 3] 3 (push_back_internal (buildN 2) 3 false) ∧
    insertionOpOk (buildN 2) [1, 2, 3] 3 (insert_after (buildN 2) 1 3) ∧
    removalOpOk (buildN 2) [1, 2, 3] 1 (remove_internal (buildN 2) 1) ∧
    (∀ p ∈ [1, 2, 3], elemOk ((pop_front (buildN 2)).2.heap p)) ∧
    (pop_front (buildN 2)).1 = (buildN 2).head :=
  links_invariant_preserved (buildN 2) [1, 2] [1, 2, 3] 3 1 1 false
    (by decide) (by decide) (by decide) (by decide)
